import Mathlib

/-!
Shallow embedding of the routing-verification oracle in
`test/verify_routing.py`: configuration loading, SHA-1-based identifier
derivation, ring construction, successor lookup, and the live-system
comparator loop. Identifiers travel as Python strings of lowercase hex
characters, modelled as `List Char`; machine bytes are `Nat` values below
256. The external `hashlib.sha1` digest is a parameter
(`sha1 : String → List Nat`, a 20-byte digest per input string).
-/

/-- Mutable module configuration of `verify_routing.py`:
`NUM_NODES`, `ID_BITS` and the derived `BYTE_LEN`. -/
structure Config where
  NUM_NODES : Nat
  ID_BITS : Nat
  BYTE_LEN : Nat
deriving DecidableEq, Repr

/-- Module-level defaults (lines 9-11): `NUM_NODES = 8`, `ID_BITS = 66`,
`BYTE_LEN = (ID_BITS + 7) // 8`. -/
def defaultConfig : Config :=
  { NUM_NODES := 8, ID_BITS := 66, BYTE_LEN := (66 + 7) / 8 }

/-- Parsed optional JSON config file: may carry `NUM_NODES` and/or
`ID_BITS` overrides. -/
structure CfgFile where
  num_nodes : Option Nat
  id_bits : Option Nat

/-- Embedding of `load_config` (lines 14-43). `none` models an absent
`verify_routing_config.json`: the function returns early and the module
globals are untouched. With a file present, the recognised fields override
the globals and `BYTE_LEN` is recomputed as `(ID_BITS + 7) // 8`. -/
def load_config : Option CfgFile → Config → Config
  | none, st => st
  | some cfg, st =>
    let n := cfg.num_nodes.getD st.NUM_NODES
    let b := cfg.id_bits.getD st.ID_BITS
    { NUM_NODES := n, ID_BITS := b, BYTE_LEN := (b + 7) / 8 }

/-- The sixteen characters Python's `bytes.hex()` can emit: the images
of the nibble values `0..15` under the hex-digit rendering. -/
def hexDigitChars : List Char :=
  (List.range 16).map Nat.digitChar

/-- Numeric value of one lowercase hex digit, as `int(_, 16)` assigns it. -/
def hexDigitVal (c : Char) : Nat :=
  if '0' ≤ c ∧ c ≤ '9' then c.toNat - '0'.toNat
  else if 'a' ≤ c ∧ c ≤ 'f' then c.toNat - 'a'.toNat + 10
  else 0

/-- Python `int(s, 16)` on the lowercase hex strings produced by
`bytes.hex()`: big-endian base-16 value of the digit string. -/
def hexToNat (s : List Char) : Nat :=
  s.foldl (fun a c => 16 * a + hexDigitVal c) 0

/-- Python `bytes.hex()` of a single byte: two lowercase hex characters. -/
def byteHex (b : Nat) : List Char :=
  [Nat.digitChar (b / 16), Nat.digitChar (b % 16)]

/-- Python `bytes.hex()` over a whole byte string. -/
def bytesHex (bs : List Nat) : List Char :=
  (bs.map byteHex).flatten

/-- Embedding of `get_id_from_string` (lines 46-59): take the first
`BYTE_LEN` bytes of the SHA-1 digest of `s`, mask the unused high bits of
the first byte when `BYTE_LEN * 8 > ID_BITS`, and render as lowercase
hex. The digest function is passed in as `sha1`. -/
def get_id_from_string (sha1 : String → List Nat) (cfg : Config) (s : String) : List Char :=
  let h := sha1 s
  let buf := h.take cfg.BYTE_LEN
  let extra_bits := cfg.BYTE_LEN * 8 - cfg.ID_BITS
  let buf2 :=
    if 0 < extra_bits then
      match buf with
      | [] => []
      | b0 :: rest => (b0 &&& (0xFF >>> extra_bits)) :: rest
    else buf
  bytesHex buf2

/-- The f-string `f"koorde-node-{i}"` of line 65. -/
def node_name (i : Nat) : String :=
  "koorde-node-" ++ toString i

/-- Python string `<`: lexicographic comparison by character code, the
order `sorted` consults on line 68. -/
def strLtB : List Char → List Char → Bool
  | [], [] => false
  | [], _ :: _ => true
  | _ :: _, [] => false
  | a :: s, b :: t => if a < b then true else if b < a then false else strLtB s t

/-- The non-strict order `a ≤ b ↔ ¬ b < a` under which Python's stable
sort arranges its output. -/
def hexLe (s t : List Char) : Prop := strLtB t s = false

instance : DecidableRel hexLe :=
  fun s t => inferInstanceAs (Decidable (strLtB t s = false))

/-- Python `sorted` on a list of strings: some sort of the list that is
non-decreasing for string `<`; modelled by insertion sort over `hexLe`. -/
def sortHex (l : List (List Char)) : List (List Char) :=
  List.insertionSort hexLe l

/-- Embedding of `get_node_ids` (lines 61-68): hash the `NUM_NODES` node
names and sort the hex strings. -/
def get_node_ids (sha1 : String → List Nat) (cfg : Config) : List (List Char) :=
  sortHex ((List.range cfg.NUM_NODES).map (fun i => get_id_from_string sha1 cfg (node_name i)))

/-- Failure outcomes of the oracle. `indexError` is Python's `IndexError`
raised by `node_ids[0]` on an empty list; `configurationError` is the
`ConfigurationError` of the spec's error taxonomy (§7), which has no
counterpart anywhere in the code — it exists here only so the spec's
statement about it can be expressed and compared with what the code does. -/
inductive PyErr where
  | indexError
  | configurationError
deriving DecidableEq, Repr

/-- The scan loop of `get_responsible_node` (lines 74-77): first entry
whose value is `>=` the key, in list order. -/
def find_ge (key_int : Nat) : List (List Char) → Option (List Char)
  | [] => none
  | node_hex :: rest =>
    if key_int ≤ hexToNat node_hex then some node_hex else find_ge key_int rest

/-- Embedding of `get_responsible_node` (lines 70-80): linear scan for the
first node id `>=` the key; on exhaustion, wrap around to `node_ids[0]`,
which raises `IndexError` when the ring is empty. -/
def get_responsible_node (key_hex : List Char) (node_ids : List (List Char)) :
    Except PyErr (List Char) :=
  match find_ge (hexToNat key_hex) node_ids with
  | some node_hex => .ok node_hex
  | none =>
    match node_ids with
    | [] => .error .indexError
    | first :: _ => .ok first

/-- Outcome of the `requests.get` call for one URL: either the request
raised (network failure), or a response arrived with a status code and an
optional `X-Node-ID` header value. -/
inductive FetchResult where
  | netError
  | response (status : Nat) (xNodeId : Option (List Char))
deriving DecidableEq, Repr

/-- The two counters of `test_routing` (lines 103-104). -/
structure Counts where
  match_count : Nat
  total_count : Nat
deriving DecidableEq, Repr

/-- Python `s.replace("0x", "")`: delete every non-overlapping occurrence
of `0x`, scanning left to right (line 124). -/
def replace0x : List Char → List Char
  | [] => []
  | [c] => [c]
  | c1 :: c2 :: rest =>
    if c1 = '0' ∧ c2 = 'x' then replace0x rest
    else c1 :: replace0x (c2 :: rest)

/-- Python `s.zfill(width)` (line 127): left-pad with `'0'` to `width`
characters, keeping a leading sign character in front of the padding. -/
def zfill (width : Nat) (s : List Char) : List Char :=
  match s with
  | [] => List.replicate width '0'
  | c :: rest =>
    if c = '+' ∨ c = '-' then c :: (List.replicate (width - s.length) '0' ++ rest)
    else List.replicate (width - s.length) '0' ++ s

/-- Loop body of `test_routing` for one URL (lines 118-140), given the
expected owner already computed on line 112: a raised request leaves both
counters alone; a non-200 status `continue`s; otherwise the header
(defaulting to the empty string) is normalised by `replace`/`zfill` and
compared, bumping `match_count` on equality and `total_count` either way. -/
def process_url (expected_node : List Char) (byte_len : Nat) (r : FetchResult) (c : Counts) :
    Counts :=
  match r with
  | .netError => c
  | .response status hdr =>
    if status ≠ 200 then c
    else
      let actual_node := zfill (byte_len * 2) (replace0x (hdr.getD []))
      if actual_node = expected_node then
        { match_count := c.match_count + 1, total_count := c.total_count + 1 }
      else
        { match_count := c.match_count, total_count := c.total_count + 1 }

/-- The whole verification loop of `test_routing` (lines 103-141) over a
batch of URLs, each paired with its expected owner and fetched outcome,
starting from zeroed counters. -/
def run_batch (byte_len : Nat) (items : List ((List Char) × FetchResult)) : Counts :=
  items.foldl (fun c item => process_url item.1 byte_len item.2 c) ⟨0, 0⟩

/-- Character strings made only of lowercase hex digits — the shape of
every identifier `bytes.hex()` produces. -/
def IsHexStr (s : List Char) : Prop := ∀ c ∈ s, c ∈ hexDigitChars

instance (s : List Char) : Decidable (IsHexStr s) :=
  inferInstanceAs (Decidable (∀ c ∈ s, c ∈ hexDigitChars))

/-- Big-endian unsigned value of a byte string — how Python interprets
`int(buf.hex(), 16)` for a byte buffer `buf`. -/
def beVal (bs : List Nat) : Nat :=
  bs.foldl (fun a b => 256 * a + b) 0

/-- Concrete stand-in digest used by the witness instantiations: the sum
of the character codes of the input, followed by nineteen zero bytes. It
satisfies the interface assumed of `hashlib.sha1` (twenty bytes, each
below 256). -/
def sha1W : String → List Nat :=
  fun s => (s.toList.foldl (fun a c => (a + c.toNat) % 256) 0) :: List.replicate 19 0

/-- Concrete small configuration used by the witness instantiations:
two nodes in an 8-bit identifier space, `BYTE_LEN = (8 + 7) / 8 = 1`. -/
def cfgW : Config :=
  { NUM_NODES := 2, ID_BITS := 8, BYTE_LEN := (8 + 7) / 8 }


/-! ### Hex digit and `hexToNat` arithmetic -/

theorem hexDigitVal_lt_16 : ∀ c ∈ hexDigitChars, hexDigitVal c < 16 := by decide

theorem digitChar_mem_hexDigitChars : ∀ n, n < 16 → Nat.digitChar n ∈ hexDigitChars := by decide

theorem hexDigitVal_digitChar : ∀ n, n < 16 → hexDigitVal (Nat.digitChar n) = n := by decide

theorem hexDigitVal_lt_of_lt :
    ∀ a ∈ hexDigitChars, ∀ b ∈ hexDigitChars, a < b → hexDigitVal a < hexDigitVal b := by decide

theorem hexToNat_nil : hexToNat [] = 0 := rfl

theorem hexToNat_foldl (t : List Char) :
    ∀ a : Nat, t.foldl (fun x c => 16 * x + hexDigitVal c) a = a * 16 ^ t.length + hexToNat t := by
  induction t with
  | nil => intro a; simp [hexToNat]
  | cons c t ih =>
    intro a
    have h0 : hexToNat (c :: t) = hexDigitVal c * 16 ^ t.length + hexToNat t := by
      show List.foldl _ (16 * 0 + hexDigitVal c) t = _
      rw [ih (16 * 0 + hexDigitVal c)]
      ring
    calc (c :: t).foldl (fun x c => 16 * x + hexDigitVal c) a
        = t.foldl (fun x c => 16 * x + hexDigitVal c) (16 * a + hexDigitVal c) := rfl
      _ = (16 * a + hexDigitVal c) * 16 ^ t.length + hexToNat t := ih _
      _ = a * 16 ^ (c :: t).length + hexToNat (c :: t) := by
          rw [h0]; simp [List.length_cons]; ring

theorem hexToNat_cons (c : Char) (s : List Char) :
    hexToNat (c :: s) = hexDigitVal c * 16 ^ s.length + hexToNat s := by
  show List.foldl _ (16 * 0 + hexDigitVal c) s = _
  rw [hexToNat_foldl]; ring

theorem hexToNat_append (s t : List Char) :
    hexToNat (s ++ t) = hexToNat s * 16 ^ t.length + hexToNat t := by
  show List.foldl _ 0 (s ++ t) = _
  rw [List.foldl_append, hexToNat_foldl]
  rfl

theorem hexToNat_lt (s : List Char) (h : IsHexStr s) : hexToNat s < 16 ^ s.length := by
  induction s with
  | nil => simp [hexToNat]
  | cons c t ih =>
    have hc := hexDigitVal_lt_16 c (h c (List.mem_cons_self c t))
    have ht := ih (fun x hx => h x (List.mem_cons_of_mem _ hx))
    rw [hexToNat_cons]
    calc hexDigitVal c * 16 ^ t.length + hexToNat t
        < hexDigitVal c * 16 ^ t.length + 16 ^ t.length := by omega
      _ = (hexDigitVal c + 1) * 16 ^ t.length := by ring
      _ ≤ 16 * 16 ^ t.length := by
          exact Nat.mul_le_mul_right _ (by omega)
      _ = 16 ^ (c :: t).length := by rw [List.length_cons]; ring

theorem hexToNat_replicate_zero (n : Nat) : hexToNat (List.replicate n '0') = 0 := by
  induction n with
  | zero => rfl
  | succ k ih =>
    rw [List.replicate_succ, hexToNat_cons, ih]
    simp [hexDigitVal]

/-! ### Order facts about Python string comparison -/

theorem strLtB_irrefl : ∀ s, strLtB s s = false
  | [] => rfl
  | a :: s => by simp [strLtB, strLtB_irrefl s]

theorem strLtB_asymm : ∀ s t, strLtB s t = true → strLtB t s = false
  | [], [] => by simp [strLtB]
  | [], b :: t => by simp [strLtB]
  | a :: s, [] => by simp [strLtB]
  | a :: s, b :: t => by
    simp only [strLtB]
    rcases lt_trichotomy a b with h | h | h
    · simp [h, lt_asymm h]
    · subst h
      simp only [lt_irrefl, if_false]
      exact strLtB_asymm s t
    · simp [h, lt_asymm h]

theorem strLtB_eq_of_both_false : ∀ s t, strLtB s t = false → strLtB t s = false → s = t
  | [], [] => fun _ _ => rfl
  | [], b :: t => by simp [strLtB]
  | a :: s, [] => by simp [strLtB]
  | a :: s, b :: t => by
    simp only [strLtB]
    rcases lt_trichotomy a b with h | h | h
    · simp [h]
    · subst h
      simp only [lt_irrefl, if_false]
      intro h1 h2
      rw [strLtB_eq_of_both_false s t h1 h2]
    · simp [h, lt_asymm h]

theorem strLtB_connected : ∀ s t u, strLtB s u = true → strLtB s t = true ∨ strLtB t u = true
  | [], t, u => by
    cases t with
    | nil => intro h; exact Or.inr h
    | cons c t => intro _; exact Or.inl (by simp [strLtB])
  | a :: s, t, [] => by simp [strLtB]
  | a :: s, t, b :: u => by
    intro hsu
    cases t with
    | nil => exact Or.inr (by simp [strLtB])
    | cons c t =>
      rcases lt_trichotomy a c with hac | hac | hac
      · exact Or.inl (by simp [strLtB, hac])
      · subst hac
        rcases lt_trichotomy a b with hab | hab | hab
        · -- head strictly increases from s to u
          rcases lt_trichotomy a b with h | h | h
          · exact Or.inr (by simp [strLtB, hab])
          · exact Or.inr (by simp [strLtB, hab])
          · exact Or.inr (by simp [strLtB, hab])
        · subst hab
          simp only [strLtB, lt_irrefl, if_false] at hsu ⊢
          exact strLtB_connected s t u hsu
        · -- contradiction: strLtB (a :: s) (b :: u) with b < a is false
          simp [strLtB, hab, lt_asymm hab] at hsu
      · -- c < a: then t < u already at the head unless it contradicts
        rcases lt_trichotomy c b with hcb | hcb | hcb
        · exact Or.inr (by simp [strLtB, hcb])
        · subst hcb
          -- c < a and head of u is c, but strLtB (a :: s) (c :: u) requires a ≤ c
          simp [strLtB, lt_asymm hac, hac] at hsu
        · -- b < c < a contradicts strLtB (a :: s) (b :: u)
          have hba : b < a := lt_trans hcb hac
          simp [strLtB, lt_asymm hba, hba] at hsu

/-! ### Facts about `bytes.hex()` and big-endian byte values -/

theorem bytesHex_cons (b : Nat) (bs : List Nat) :
    bytesHex (b :: bs) = byteHex b ++ bytesHex bs := rfl

theorem bytesHex_length (bs : List Nat) : (bytesHex bs).length = 2 * bs.length := by
  induction bs with
  | nil => rfl
  | cons b bs ih =>
    rw [bytesHex_cons, List.length_append, ih]
    simp [byteHex, List.length_cons]
    ring

theorem byteHex_isHex (b : Nat) (h : b < 256) : IsHexStr (byteHex b) := by
  intro c hc
  have h1 : b / 16 < 16 := Nat.div_lt_of_lt_mul (by omega)
  have h2 : b % 16 < 16 := Nat.mod_lt _ (by omega)
  simp only [byteHex, List.mem_cons, List.not_mem_nil, or_false] at hc
  rcases hc with rfl | rfl
  · exact digitChar_mem_hexDigitChars _ h1
  · exact digitChar_mem_hexDigitChars _ h2

theorem bytesHex_isHex (bs : List Nat) (h : ∀ b ∈ bs, b < 256) : IsHexStr (bytesHex bs) := by
  induction bs with
  | nil => intro c hc; simp [bytesHex] at hc
  | cons b bs ih =>
    rw [bytesHex_cons]
    intro c hc
    rcases List.mem_append.1 hc with hc | hc
    · exact byteHex_isHex b (h b (List.mem_cons_self b bs)) c hc
    · exact ih (fun x hx => h x (List.mem_cons_of_mem _ hx)) c hc

theorem hexToNat_byteHex (b : Nat) (h : b < 256) : hexToNat (byteHex b) = b := by
  have h1 : b / 16 < 16 := Nat.div_lt_of_lt_mul (by omega)
  have h2 : b % 16 < 16 := Nat.mod_lt _ (by omega)
  show hexToNat [Nat.digitChar (b / 16), Nat.digitChar (b % 16)] = b
  rw [hexToNat_cons, hexToNat_cons, hexToNat_nil,
    hexDigitVal_digitChar _ h1, hexDigitVal_digitChar _ h2]
  simp [List.length_cons]
  omega

theorem beVal_foldl (bs : List Nat) :
    ∀ a : Nat, bs.foldl (fun x b => 256 * x + b) a = a * 256 ^ bs.length + beVal bs := by
  induction bs with
  | nil => intro a; simp [beVal]
  | cons b bs ih =>
    intro a
    have h0 : beVal (b :: bs) = b * 256 ^ bs.length + beVal bs := by
      show List.foldl _ (256 * 0 + b) bs = _
      rw [ih (256 * 0 + b)]
      ring
    calc (b :: bs).foldl (fun x b => 256 * x + b) a
        = bs.foldl (fun x b => 256 * x + b) (256 * a + b) := rfl
      _ = (256 * a + b) * 256 ^ bs.length + beVal bs := ih _
      _ = a * 256 ^ (b :: bs).length + beVal (b :: bs) := by
          rw [h0]; simp [List.length_cons]; ring

theorem beVal_cons (b : Nat) (bs : List Nat) :
    beVal (b :: bs) = b * 256 ^ bs.length + beVal bs := by
  show List.foldl _ (256 * 0 + b) bs = _
  rw [beVal_foldl]
  ring

theorem beVal_lt (bs : List Nat) (h : ∀ b ∈ bs, b < 256) : beVal bs < 256 ^ bs.length := by
  induction bs with
  | nil => simp [beVal]
  | cons b bs ih =>
    have hb := h b (List.mem_cons_self b bs)
    have ht := ih (fun x hx => h x (List.mem_cons_of_mem _ hx))
    rw [beVal_cons]
    calc b * 256 ^ bs.length + beVal bs
        < b * 256 ^ bs.length + 256 ^ bs.length := by omega
      _ = (b + 1) * 256 ^ bs.length := by ring
      _ ≤ 256 * 256 ^ bs.length := Nat.mul_le_mul_right _ (by omega)
      _ = 256 ^ (b :: bs).length := by rw [List.length_cons]; ring

theorem hexToNat_bytesHex (bs : List Nat) (h : ∀ b ∈ bs, b < 256) :
    hexToNat (bytesHex bs) = beVal bs := by
  induction bs with
  | nil => rfl
  | cons b bs ih =>
    rw [bytesHex_cons, hexToNat_append, bytesHex_length,
      hexToNat_byteHex b (h b (List.mem_cons_self b bs)),
      ih (fun x hx => h x (List.mem_cons_of_mem _ hx)), beVal_cons]
    have : (16 : Nat) ^ (2 * bs.length) = 256 ^ bs.length := by
      rw [pow_mul]
      norm_num
    rw [this]

/-! ### Characterisation of `get_id_from_string` -/

theorem mask_shiftRight : ∀ e, e ≤ 8 → (0xFF : Nat) >>> e = 2 ^ (8 - e) - 1 := by decide

theorem get_id_unfold (sha1 : String → List Nat) (cfg : Config) (s : String) :
    get_id_from_string sha1 cfg s =
      bytesHex (if 0 < cfg.BYTE_LEN * 8 - cfg.ID_BITS then
          match (sha1 s).take cfg.BYTE_LEN with
          | [] => []
          | b0 :: rest => (b0 &&& (0xFF >>> (cfg.BYTE_LEN * 8 - cfg.ID_BITS))) :: rest
        else (sha1 s).take cfg.BYTE_LEN) := rfl

theorem get_id_eq_mask (sha1 : String → List Nat) (cfg : Config) (s : String)
    (b0 : Nat) (rest : List Nat) (hx : 0 < cfg.BYTE_LEN * 8 - cfg.ID_BITS)
    (hbuf : (sha1 s).take cfg.BYTE_LEN = b0 :: rest) :
    get_id_from_string sha1 cfg s =
      bytesHex ((b0 &&& (0xFF >>> (cfg.BYTE_LEN * 8 - cfg.ID_BITS))) :: rest) := by
  rw [get_id_unfold, if_pos hx, hbuf]

theorem get_id_eq_nomask (sha1 : String → List Nat) (cfg : Config) (s : String)
    (hx : ¬ 0 < cfg.BYTE_LEN * 8 - cfg.ID_BITS) :
    get_id_from_string sha1 cfg s = bytesHex ((sha1 s).take cfg.BYTE_LEN) := by
  rw [get_id_unfold, if_neg hx]

theorem pow256_eq (k : Nat) : (256 : Nat) ^ k = 2 ^ (8 * k) := by
  rw [pow_mul]
  norm_num

theorem get_id_spec (sha1 : String → List Nat) (cfg : Config) (s : String)
    (hlen : (sha1 s).length = 20) (hbytes : ∀ b ∈ sha1 s, b < 256)
    (h1 : 1 ≤ cfg.ID_BITS) (h2 : cfg.ID_BITS ≤ 160)
    (hB : cfg.BYTE_LEN = (cfg.ID_BITS + 7) / 8) :
    IsHexStr (get_id_from_string sha1 cfg s) ∧
    (get_id_from_string sha1 cfg s).length = 2 * cfg.BYTE_LEN ∧
    hexToNat (get_id_from_string sha1 cfg s) < 2 ^ cfg.ID_BITS := by
  have hB1 : 1 ≤ cfg.BYTE_LEN := by omega
  have hB20 : cfg.BYTE_LEN ≤ 20 := by omega
  have hBID : cfg.ID_BITS ≤ cfg.BYTE_LEN * 8 := by omega
  have hExtra : cfg.BYTE_LEN * 8 - cfg.ID_BITS ≤ 7 := by omega
  have hbuflen : ((sha1 s).take cfg.BYTE_LEN).length = cfg.BYTE_LEN := by
    rw [List.length_take, hlen]
    omega
  have hbufbytes : ∀ b ∈ (sha1 s).take cfg.BYTE_LEN, b < 256 :=
    fun b hb => hbytes b (List.take_subset _ _ hb)
  by_cases hx : 0 < cfg.BYTE_LEN * 8 - cfg.ID_BITS
  · -- masking applies
    cases hbuf : (sha1 s).take cfg.BYTE_LEN with
    | nil => rw [hbuf] at hbuflen; simp at hbuflen; omega
    | cons b0 rest =>
      rw [hbuf] at hbuflen hbufbytes
      set e := cfg.BYTE_LEN * 8 - cfg.ID_BITS with he
      have hmaskv : (0xFF : Nat) >>> e = 2 ^ (8 - e) - 1 := mask_shiftRight e (by omega)
      have hmle : b0 &&& (0xFF >>> e) ≤ 2 ^ (8 - e) - 1 := by
        rw [hmaskv]
        exact Nat.and_le_right
      have hpow256 : (2 : Nat) ^ (8 - e) ≤ 2 ^ 8 := Nat.pow_le_pow_right (by omega) (by omega)
      have hpowpos : 0 < (2 : Nat) ^ (8 - e) := pow_pos (by norm_num) _
      have hm256 : b0 &&& (0xFF >>> e) < 256 := by
        have : (2 : Nat) ^ 8 = 256 := by norm_num
        omega
      have hbytes2 : ∀ b ∈ (b0 &&& (0xFF >>> e)) :: rest, b < 256 := by
        intro b hb
        rcases List.mem_cons.1 hb with rfl | hb
        · exact hm256
        · exact hbufbytes b (List.mem_cons_of_mem _ hb)
      rw [get_id_eq_mask sha1 cfg s b0 rest hx hbuf]
      refine ⟨bytesHex_isHex _ hbytes2, ?_, ?_⟩
      · rw [bytesHex_length]
        simp only [List.length_cons] at hbuflen ⊢
        omega
      · rw [hexToNat_bytesHex _ hbytes2, beVal_cons]
        have hrest : beVal rest < 256 ^ rest.length :=
          beVal_lt rest (fun b hb => hbufbytes b (List.mem_cons_of_mem _ hb))
        have hlenrest : rest.length = cfg.BYTE_LEN - 1 := by
          simp only [List.length_cons] at hbuflen
          omega
        calc (b0 &&& (0xFF >>> e)) * 256 ^ rest.length + beVal rest
            < ((b0 &&& (0xFF >>> e)) + 1) * 256 ^ rest.length := by
              have := hrest
              nlinarith [pow_pos (by norm_num : (0:Nat) < 256) rest.length]
          _ ≤ 2 ^ (8 - e) * 256 ^ rest.length := Nat.mul_le_mul_right _ (by omega)
          _ = 2 ^ (8 - e) * 2 ^ (8 * rest.length) := by rw [pow256_eq]
          _ = 2 ^ (8 - e + 8 * rest.length) := by rw [pow_add]
          _ = 2 ^ cfg.ID_BITS := by
              congr 1
              rw [hlenrest]
              omega
  · -- no masking: ID_BITS is exactly BYTE_LEN * 8
    have hid : cfg.ID_BITS = cfg.BYTE_LEN * 8 := by omega
    rw [get_id_eq_nomask sha1 cfg s hx]
    refine ⟨bytesHex_isHex _ hbufbytes, ?_, ?_⟩
    · rw [bytesHex_length, hbuflen]
    · rw [hexToNat_bytesHex _ hbufbytes]
      have := beVal_lt _ hbufbytes
      rw [hbuflen, pow256_eq] at this
      rw [hid]
      calc beVal ((sha1 s).take cfg.BYTE_LEN) < 2 ^ (8 * cfg.BYTE_LEN) := this
        _ = 2 ^ (cfg.BYTE_LEN * 8) := by rw [Nat.mul_comm]

/-! ### The successor scan -/

theorem find_ge_some : ∀ (ring : List (List Char)) (k : Nat) (r : List Char),
    find_ge k ring = some r → r ∈ ring ∧ k ≤ hexToNat r
  | [], _, _ => by simp [find_ge]
  | x :: rest, k, r => by
    simp only [find_ge]
    by_cases hx : k ≤ hexToNat x
    · rw [if_pos hx]
      intro h
      cases h
      exact ⟨List.mem_cons_self _ _, hx⟩
    · rw [if_neg hx]
      intro h
      obtain ⟨hm, hk⟩ := find_ge_some rest k r h
      exact ⟨List.mem_cons_of_mem _ hm, hk⟩

theorem find_ge_some_min : ∀ (ring : List (List Char)) (k : Nat) (r : List Char),
    ring.Pairwise (fun s t => hexToNat s ≤ hexToNat t) →
    find_ge k ring = some r →
    ∀ y ∈ ring, k ≤ hexToNat y → hexToNat r ≤ hexToNat y
  | [], _, _ => by simp [find_ge]
  | x :: rest, k, r => by
    intro hsorted h y hy hky
    have hx_rest := List.pairwise_cons.1 hsorted
    simp only [find_ge] at h
    by_cases hx : k ≤ hexToNat x
    · rw [if_pos hx] at h
      cases h
      rcases List.mem_cons.1 hy with rfl | hy
      · exact le_refl _
      · exact hx_rest.1 y hy
    · rw [if_neg hx] at h
      rcases List.mem_cons.1 hy with rfl | hy
      · exact absurd hky hx
      · exact find_ge_some_min rest k r hx_rest.2 h y hy hky

theorem find_ge_none : ∀ (ring : List (List Char)) (k : Nat),
    find_ge k ring = none → ∀ y ∈ ring, hexToNat y < k
  | [], _ => by simp
  | x :: rest, k => by
    simp only [find_ge]
    by_cases hx : k ≤ hexToNat x
    · rw [if_pos hx]; intro h; cases h
    · rw [if_neg hx]
      intro h y hy
      rcases List.mem_cons.1 hy with rfl | hy
      · omega
      · exact find_ge_none rest k h y hy

/-! ### Normalisation helpers for the comparator -/

theorem replace0x_strip (d : List Char) : replace0x ('0' :: 'x' :: d) = replace0x d := by
  simp [replace0x]

theorem hexChar_not_sign : ∀ c ∈ hexDigitChars, ¬(c = '+' ∨ c = '-') := by decide

theorem hexChar_ne_x : ∀ c ∈ hexDigitChars, c ≠ 'x' := by decide

theorem replace0x_hex : ∀ d : List Char, IsHexStr d → replace0x d = d
  | [], _ => rfl
  | [c], _ => rfl
  | c1 :: c2 :: rest, h => by
    have h2 : c2 ∈ hexDigitChars := h c2 (by simp)
    have hx : ¬(c1 = '0' ∧ c2 = 'x') := by
      rintro ⟨-, rfl⟩
      exact hexChar_ne_x _ h2 rfl
    have ih : replace0x (c2 :: rest) = c2 :: rest :=
      replace0x_hex (c2 :: rest) (fun x hx2 => h x (List.mem_cons_of_mem _ hx2))
    simp [replace0x, hx, ih]

theorem zfill_hex (w : Nat) (d : List Char) (hd : IsHexStr d) :
    zfill w d = List.replicate (w - d.length) '0' ++ d := by
  cases d with
  | nil => simp [zfill]
  | cons c rest =>
    have hc : ¬(c = '+' ∨ c = '-') := hexChar_not_sign c (hd c (List.mem_cons_self _ _))
    simp [zfill, hc]

theorem zfill_hex_isHex (w : Nat) (d : List Char) (hd : IsHexStr d) :
    IsHexStr (zfill w d) := by
  rw [zfill_hex w d hd]
  intro c hc
  rcases List.mem_append.1 hc with hc | hc
  · rw [List.eq_of_mem_replicate hc]
    decide
  · exact hd c hc

theorem zfill_hex_length (w : Nat) (d : List Char) (hd : IsHexStr d) (hw : d.length ≤ w) :
    (zfill w d).length = w := by
  rw [zfill_hex w d hd]
  simp [List.length_append, List.length_replicate]
  omega

theorem zfill_hex_val (w : Nat) (d : List Char) (hd : IsHexStr d) :
    hexToNat (zfill w d) = hexToNat d := by
  rw [zfill_hex w d hd, hexToNat_append, hexToNat_replicate_zero]
  simp

/-! ### Lexicographic order agrees with numeric order on fixed-width hex -/

theorem hexToNat_lt_of_strLtB : ∀ s t : List Char, s.length = t.length →
    IsHexStr s → IsHexStr t → strLtB s t = true → hexToNat s < hexToNat t
  | [], [], _, _, _ => by simp [strLtB]
  | [], b :: t, hlen, _, _ => by simp at hlen
  | a :: s, [], hlen, _, _ => by simp at hlen
  | a :: s, b :: t, hlen, hs, ht => by
    intro hlt
    have hlen2 : s.length = t.length := by simpa using hlen
    have ha : a ∈ hexDigitChars := hs a (List.mem_cons_self _ _)
    have hb : b ∈ hexDigitChars := ht b (List.mem_cons_self _ _)
    have hs2 : IsHexStr s := fun x hx => hs x (List.mem_cons_of_mem _ hx)
    have ht2 : IsHexStr t := fun x hx => ht x (List.mem_cons_of_mem _ hx)
    rw [hexToNat_cons, hexToNat_cons]
    rcases lt_trichotomy a b with h | h | h
    · have hv : hexDigitVal a < hexDigitVal b := hexDigitVal_lt_of_lt a ha b hb h
      have hsv : hexToNat s < 16 ^ s.length := hexToNat_lt s hs2
      calc hexDigitVal a * 16 ^ s.length + hexToNat s
          < (hexDigitVal a + 1) * 16 ^ s.length := by nlinarith
        _ ≤ hexDigitVal b * 16 ^ s.length := Nat.mul_le_mul_right _ (by omega)
        _ = hexDigitVal b * 16 ^ t.length := by rw [hlen2]
        _ ≤ hexDigitVal b * 16 ^ t.length + hexToNat t := Nat.le_add_right _ _
    · subst h
      simp only [strLtB, lt_irrefl, if_false] at hlt
      have := hexToNat_lt_of_strLtB s t hlen2 hs2 ht2 hlt
      rw [hlen2]
      omega
    · simp [strLtB, h, lt_asymm h] at hlt

/-! ### Sortedness of Python `sorted` output -/

theorem hexLe_total : ∀ s t : List Char, hexLe s t ∨ hexLe t s := by
  intro s t
  cases h : strLtB t s
  · exact Or.inl h
  · exact Or.inr (strLtB_asymm t s h)

theorem hexLe_trans : ∀ s t u : List Char, hexLe s t → hexLe t u → hexLe s u := by
  intro s t u hst htu
  unfold hexLe at hst htu ⊢
  cases h : strLtB u s
  · rfl
  · rcases strLtB_connected u t s h with h2 | h2
    · rw [htu] at h2; cases h2
    · rw [hst] at h2; cases h2

theorem sortHex_sorted (l : List (List Char)) : (sortHex l).Pairwise hexLe := by
  haveI : IsTotal (List Char) hexLe := ⟨hexLe_total⟩
  haveI : IsTrans (List Char) hexLe := ⟨hexLe_trans⟩
  exact List.sorted_insertionSort hexLe l

theorem sortHex_perm (l : List (List Char)) : (sortHex l).Perm l :=
  List.perm_insertionSort hexLe l

theorem strLtB_true_of_ne (s t : List Char) (hle : hexLe s t) (hne : s ≠ t) :
    strLtB s t = true := by
  cases h : strLtB s t
  · exact absurd (strLtB_eq_of_both_false s t h hle) hne
  · rfl

theorem pairwise_hexlt (w : Nat) : ∀ l : List (List Char),
    (∀ x ∈ l, IsHexStr x ∧ x.length = w) →
    l.Pairwise hexLe → l.Nodup →
    l.Pairwise (fun s t => hexToNat s < hexToNat t) := by
  intro l
  induction l with
  | nil => intro _ _ _; exact List.Pairwise.nil
  | cons x rest ih =>
    intro hall hle hnd
    obtain ⟨hx_le, hrest_le⟩ := List.pairwise_cons.1 hle
    obtain ⟨hx_nin, hrest_nd⟩ := List.nodup_cons.1 hnd
    refine List.pairwise_cons.2 ⟨?_, ?_⟩
    · intro y hy
      have hne : x ≠ y := fun h => hx_nin (h ▸ hy)
      have hxh := hall x (List.mem_cons_self _ _)
      have hyh := hall y (List.mem_cons_of_mem _ hy)
      have hlt : strLtB x y = true := strLtB_true_of_ne x y (hx_le y hy) hne
      exact hexToNat_lt_of_strLtB x y (by rw [hxh.2, hyh.2]) hxh.1 hyh.1 hlt
    · exact ih (fun z hz => hall z (List.mem_cons_of_mem _ hz)) hrest_le hrest_nd

theorem hexStr_eq_of_val_eq (s t : List Char) (hlen : s.length = t.length)
    (hs : IsHexStr s) (ht : IsHexStr t) (hval : hexToNat s = hexToNat t) : s = t := by
  by_contra hne
  cases h : strLtB s t with
  | true =>
    have := hexToNat_lt_of_strLtB s t hlen hs ht h
    omega
  | false =>
    cases h2 : strLtB t s with
    | true =>
      have := hexToNat_lt_of_strLtB t s hlen.symm ht hs h2
      omega
    | false => exact hne (strLtB_eq_of_both_false s t h h2)

/-! ### Counter behaviour of the comparator loop -/

theorem process_url_le (e : List Char) (blen : Nat) (r : FetchResult) (c : Counts)
    (h : c.match_count ≤ c.total_count) :
    (process_url e blen r c).match_count ≤ (process_url e blen r c).total_count := by
  cases r with
  | netError => exact h
  | response st hdr =>
    simp only [process_url]
    split_ifs with h1 h2
    · exact h
    · dsimp only
      omega
    · dsimp only
      omega

theorem run_batch_le (blen : Nat) : ∀ (items : List ((List Char) × FetchResult)) (c : Counts),
    c.match_count ≤ c.total_count →
    (items.foldl (fun c item => process_url item.1 blen item.2 c) c).match_count ≤
      (items.foldl (fun c item => process_url item.1 blen item.2 c) c).total_count := by
  intro items
  induction items with
  | nil => intro c h; exact h
  | cons item rest ih =>
    intro c h
    exact ih _ (process_url_le item.1 blen item.2 c h)

/-! ### Claims -/

/-- C9: when the optional configuration file is absent, `load_config`
leaves the configuration unchanged, and the defaults are `NUM_NODES = 8`,
`ID_BITS = 66` and `BYTE_LEN = (66 + 7) // 8 = 9`, the ceiling of
`ID_BITS / 8`; absence of the file is not an error (the function is total
and simply returns). -/
theorem C9_default_config_frame :
    (∀ st : Config, load_config none st = st) ∧
    defaultConfig.NUM_NODES = 8 ∧ defaultConfig.ID_BITS = 66 ∧
    defaultConfig.BYTE_LEN = 9 ∧
    defaultConfig.BYTE_LEN = (defaultConfig.ID_BITS + 7) / 8 :=
  ⟨fun _ => rfl, rfl, rfl, rfl, rfl⟩

/-- C10: each URL moves `total_count` up by zero or one, and moves
`match_count` up only together with `total_count`; consequently, over any
batch starting from zeroed counters — in particular for every prefix, and
including the all-unverifiable `0/0` run — `match_count ≤ total_count`,
so the summary ratio is well-formed. -/
theorem C10_counter_invariant :
    (∀ (e : List Char) (blen : Nat) (r : FetchResult) (c : Counts),
      ((process_url e blen r c).total_count = c.total_count ∨
        (process_url e blen r c).total_count = c.total_count + 1) ∧
      ((process_url e blen r c).match_count = c.match_count ∨
        ((process_url e blen r c).match_count = c.match_count + 1 ∧
          (process_url e blen r c).total_count = c.total_count + 1))) ∧
    (∀ (blen : Nat) (items : List ((List Char) × FetchResult)),
      (run_batch blen items).match_count ≤ (run_batch blen items).total_count) := by
  constructor
  · intro e blen r c
    cases r with
    | netError => exact ⟨Or.inl rfl, Or.inl rfl⟩
    | response st hdr =>
      simp only [process_url]
      split_ifs with h1 h2
      · exact ⟨Or.inl rfl, Or.inl rfl⟩
      · exact ⟨Or.inr rfl, Or.inr ⟨rfl, rfl⟩⟩
      · exact ⟨Or.inr rfl, Or.inl rfl⟩
  · intro blen items
    exact run_batch_le blen items ⟨0, 0⟩ (le_refl 0)

/-- C4 counterexample: on an empty ring and the key `"05"`,
`get_responsible_node` does not fail with the spec's `ConfigurationError`;
it fails with Python's `IndexError`, raised by indexing `node_ids[0]` on
the empty list. -/
theorem C4_empty_ring_counterexample :
    get_responsible_node ['0', '5'] [] = Except.error PyErr.indexError ∧
    (Except.error PyErr.indexError : Except PyErr (List Char)) ≠
      Except.error PyErr.configurationError := by
  refine ⟨rfl, ?_⟩
  intro h
  injection h with h2
  cases h2

/-- C4 amended: calling `get_responsible_node` with an empty ring fails
— it returns no ring entry — but the failure is an uncaught `IndexError`
from `node_ids[0]`, not a dedicated `ConfigurationError`. -/
theorem C4_empty_ring_amended (key : List Char) :
    get_responsible_node key [] = Except.error PyErr.indexError := rfl

/-- C5 counterexample: a key whose collaborator response has HTTP status
200 but no node-id header is not left out of the counts: with expected
owner `"30"`, `BYTE_LEN = 1` and zeroed counters, the missing header is
normalised to `"00"`, compared, and counted as a mismatch — `total_count`
becomes 1 instead of staying 0. -/
theorem C5_missing_header_counterexample :
    process_url ['3', '0'] 1 (FetchResult.response 200 none) ⟨0, 0⟩ = ⟨0, 1⟩ ∧
    (⟨0, 1⟩ : Counts) ≠ (⟨0, 0⟩ : Counts) := by
  constructor
  · rfl
  · decide

/-- C5 amended: a 200-status response is never recorded as unverifiable,
whatever its node-id header looks like — missing (defaulting to the empty
string) or present but malformed: the value is normalised and compared,
so the key always increments `total_count` by one, and increments
`match_count` exactly when the normalised value equals the expected
identifier. Conversely, only network exceptions and non-200 statuses
leave both counters unchanged. -/
theorem C5_missing_header_amended (e : List Char) (blen : Nat)
    (hdr : Option (List Char)) (c : Counts) :
    (process_url e blen (FetchResult.response 200 hdr) c).total_count = c.total_count + 1 ∧
    (process_url e blen (FetchResult.response 200 hdr) c).match_count =
      (if zfill (blen * 2) (replace0x (hdr.getD [])) = e then c.match_count + 1
        else c.match_count) ∧
    ∀ r : FetchResult, process_url e blen r c = c →
      r = FetchResult.netError ∨
        ∃ st hdr2, r = FetchResult.response st hdr2 ∧ st ≠ 200 := by
  refine ⟨?_, ?_, ?_⟩
  · simp only [process_url, ne_eq, not_true_eq_false, if_false]
    split_ifs with h
    · rfl
    · rfl
  · simp only [process_url, ne_eq, not_true_eq_false, if_false]
    split_ifs with h
    · rfl
    · rfl
  · intro r hr
    cases r with
    | netError => exact Or.inl rfl
    | response st hdr2 =>
      by_cases hst : st = 200
      · subst hst
        exfalso
        have htot := congrArg Counts.total_count hr
        simp only [process_url, ne_eq, not_true_eq_false, if_false] at htot
        split_ifs at htot <;> simp at htot
      · exact Or.inr ⟨st, hdr2, rfl, hst⟩

/-- C5 amended witness: the amended statement evaluated at a 200 response
carrying a malformed (non-hex) header value, which is still counted. -/
theorem C5_missing_header_amended_witness :
    (process_url ['3', '0'] 1 (FetchResult.response 200 (some ['z', 'z'])) ⟨0, 0⟩).total_count
      = 0 + 1 ∧
    (process_url ['3', '0'] 1 (FetchResult.response 200 (some ['z', 'z'])) ⟨0, 0⟩).match_count =
      (if zfill (1 * 2) (replace0x ['z', 'z']) = ['3', '0'] then 0 + 1 else 0) ∧
    ∀ r : FetchResult, process_url ['3', '0'] 1 r ⟨0, 0⟩ = ⟨0, 0⟩ →
      r = FetchResult.netError ∨
        ∃ st hdr2, r = FetchResult.response st hdr2 ∧ st ≠ 200 :=
  C5_missing_header_amended ['3', '0'] 1 (some ['z', 'z']) ⟨0, 0⟩

/-- C6: a network exception or a non-200 status leaves both counters
untouched for that key, and removing such an item from a batch does not
change the final counters at all — the denominator contribution of the
other keys is unaffected and the batch continues past the bad key. -/
theorem C6_unverifiable_skipped (e : List Char) (blen : Nat) (r : FetchResult)
    (l1 l2 : List ((List Char) × FetchResult))
    (h : r = FetchResult.netError ∨ ∃ st hdr, r = FetchResult.response st hdr ∧ st ≠ 200) :
    (∀ c : Counts, process_url e blen r c = c) ∧
    run_batch blen (l1 ++ (e, r) :: l2) = run_batch blen (l1 ++ l2) := by
  have hid : ∀ c : Counts, process_url e blen r c = c := by
    intro c
    rcases h with rfl | ⟨st, hdr, rfl, hst⟩
    · rfl
    · simp [process_url, hst]
  refine ⟨hid, ?_⟩
  simp only [run_batch, List.foldl_append, List.foldl_cons]
  rw [hid]

/-- C6 witness: a 500-status response for one key is skipped and removing
it leaves the batch result unchanged, at a concrete two-key batch. -/
theorem C6_unverifiable_skipped_witness :
    (∀ c : Counts, process_url ['3', '0'] 1 (FetchResult.response 500 none) c = c) ∧
    run_batch 1 ([(['3', '0'], FetchResult.response 200 (some ['3', '0']))] ++
        (['3', '0'], FetchResult.response 500 none) ::
        [(['3', '0'], FetchResult.netError)]) =
      run_batch 1 ([(['3', '0'], FetchResult.response 200 (some ['3', '0']))] ++
        [(['3', '0'], FetchResult.netError)]) :=
  C6_unverifiable_skipped ['3', '0'] 1 (FetchResult.response 500 none) _ _
    (Or.inr ⟨500, none, rfl, by decide⟩)

theorem sha1W_length (s : String) : (sha1W s).length = 20 := rfl

theorem sha1W_fold_lt : ∀ (l : List Char) (a : Nat), a < 256 →
    l.foldl (fun a c => (a + c.toNat) % 256) a < 256
  | [], _, h => h
  | c :: l, a, _ =>
    sha1W_fold_lt l ((a + c.toNat) % 256) (Nat.mod_lt _ (by norm_num))

theorem sha1W_bytes (s : String) : ∀ b ∈ sha1W s, b < 256 := by
  intro b hb
  simp only [sha1W] at hb
  rcases List.mem_cons.1 hb with rfl | hb2
  · exact sha1W_fold_lt s.toList 0 (by norm_num)
  · rw [List.eq_of_mem_replicate hb2]
    norm_num

/-- C1: on a non-empty ring sorted ascending by unsigned value,
`get_responsible_node` succeeds with a ring member `r` such that whenever
some entry is `>=` the key, `r` is a least such entry (so the first, the
ring being sorted), and whenever every entry is below the key it wraps
around: `r` is the first — and smallest — ring entry. -/
theorem C1_successor_rule (key : List Char) (ring : List (List Char))
    (hne : ring ≠ [])
    (hsorted : ring.Pairwise (fun s t => hexToNat s ≤ hexToNat t)) :
    ∃ r, get_responsible_node key ring = Except.ok r ∧ r ∈ ring ∧
      (∀ y ∈ ring, hexToNat key ≤ hexToNat y →
        hexToNat key ≤ hexToNat r ∧ hexToNat r ≤ hexToNat y) ∧
      ((∀ y ∈ ring, hexToNat y < hexToNat key) →
        ring.head? = some r ∧ ∀ y ∈ ring, hexToNat r ≤ hexToNat y) := by
  cases hf : find_ge (hexToNat key) ring with
  | some r =>
    refine ⟨r, ?_, (find_ge_some ring _ r hf).1, ?_, ?_⟩
    · simp [get_responsible_node, hf]
    · intro y hy hky
      exact ⟨(find_ge_some ring _ r hf).2, find_ge_some_min ring _ r hsorted hf y hy hky⟩
    · intro hall
      have h1 := find_ge_some ring _ r hf
      have := hall r h1.1
      omega
  | none =>
    cases ring with
    | nil => exact absurd rfl hne
    | cons x rest =>
      refine ⟨x, ?_, List.mem_cons_self _ _, ?_, ?_⟩
      · simp [get_responsible_node, hf]
      · intro y hy hky
        have := find_ge_none _ _ hf y hy
        omega
      · intro _
        refine ⟨rfl, ?_⟩
        intro y hy
        rcases List.mem_cons.1 hy with rfl | hy
        · exact le_refl _
        · exact (List.pairwise_cons.1 hsorted).1 y hy

/-- C1 witness: the successor rule applied to the spec's concrete ring
`["10", "50", "90"]`, with the three example keys checked: `"05"` routes
to `"10"`, `"95"` wraps to `"10"`, and `"50"` stays at `"50"` (the `>=`
boundary is inclusive). -/
theorem C1_successor_rule_witness :
    (∃ r, get_responsible_node ['0', '5'] [['1', '0'], ['5', '0'], ['9', '0']] =
        Except.ok r ∧ r ∈ [['1', '0'], ['5', '0'], ['9', '0']] ∧
      (∀ y ∈ [['1', '0'], ['5', '0'], ['9', '0']], hexToNat ['0', '5'] ≤ hexToNat y →
        hexToNat ['0', '5'] ≤ hexToNat r ∧ hexToNat r ≤ hexToNat y) ∧
      ((∀ y ∈ [['1', '0'], ['5', '0'], ['9', '0']], hexToNat y < hexToNat ['0', '5']) →
        [['1', '0'], ['5', '0'], ['9', '0']].head? = some r ∧
          ∀ y ∈ [['1', '0'], ['5', '0'], ['9', '0']], hexToNat r ≤ hexToNat y)) ∧
    get_responsible_node ['0', '5'] [['1', '0'], ['5', '0'], ['9', '0']] =
      Except.ok ['1', '0'] ∧
    get_responsible_node ['9', '5'] [['1', '0'], ['5', '0'], ['9', '0']] =
      Except.ok ['1', '0'] ∧
    get_responsible_node ['5', '0'] [['1', '0'], ['5', '0'], ['9', '0']] =
      Except.ok ['5', '0'] :=
  ⟨C1_successor_rule ['0', '5'] [['1', '0'], ['5', '0'], ['9', '0']] (by decide) (by decide),
    by rfl, by rfl, by rfl⟩

/-- C8: identifier derivation is deterministic — two calls with the same
name string and the same `ID_BITS` (hence the same recomputed `BYTE_LEN`)
return the identical identifier, whatever the rest of the configuration
(`NUM_NODES`) looks like, since the digest is a fixed function of the
input string. -/
theorem C8_derive_id_deterministic (sha1 : String → List Nat) (cfg cfg' : Config)
    (s s' : String) (hs : s = s') (hbits : cfg.ID_BITS = cfg'.ID_BITS)
    (hB : cfg.BYTE_LEN = (cfg.ID_BITS + 7) / 8)
    (hB' : cfg'.BYTE_LEN = (cfg'.ID_BITS + 7) / 8) :
    get_id_from_string sha1 cfg s = get_id_from_string sha1 cfg' s' := by
  subst hs
  have hBeq : cfg.BYTE_LEN = cfg'.BYTE_LEN := by rw [hB, hB', hbits]
  rw [get_id_unfold, get_id_unfold, hbits, hBeq]

/-- C8 witness: two configurations agreeing on `ID_BITS = 8` (and hence
on `BYTE_LEN = 1`) but differing in `NUM_NODES` derive the same id for
the same string. -/
theorem C8_derive_id_deterministic_witness :
    get_id_from_string sha1W cfgW "https://example.org" =
      get_id_from_string sha1W
        { NUM_NODES := 5, ID_BITS := 8, BYTE_LEN := (8 + 7) / 8 } "https://example.org" :=
  C8_derive_id_deterministic sha1W cfgW
    { NUM_NODES := 5, ID_BITS := 8, BYTE_LEN := (8 + 7) / 8 }
    "https://example.org" "https://example.org" rfl rfl (by decide) (by decide)

/-- C3: for any digest function behaving like SHA-1 (twenty bytes, each
below 256), any `ID_BITS` in `{1..160}` with `BYTE_LEN` its byte ceiling,
and any input string, the derived identifier's unsigned value is strictly
below `2 ^ ID_BITS`; and when `ID_BITS` is an exact multiple of 8 no
masking is applied — the id is exactly the hex of the first `BYTE_LEN`
digest bytes. -/
theorem C3_derive_id_bound (sha1 : String → List Nat) (cfg : Config) (s : String)
    (hlen : (sha1 s).length = 20) (hbytes : ∀ b ∈ sha1 s, b < 256)
    (h1 : 1 ≤ cfg.ID_BITS) (h2 : cfg.ID_BITS ≤ 160)
    (hB : cfg.BYTE_LEN = (cfg.ID_BITS + 7) / 8) :
    hexToNat (get_id_from_string sha1 cfg s) < 2 ^ cfg.ID_BITS ∧
    (cfg.ID_BITS % 8 = 0 →
      get_id_from_string sha1 cfg s = bytesHex ((sha1 s).take cfg.BYTE_LEN)) := by
  refine ⟨(get_id_spec sha1 cfg s hlen hbytes h1 h2 hB).2.2, ?_⟩
  intro hmod
  apply get_id_eq_nomask
  omega

/-- C3 witness: the bound evaluated at the concrete digest `sha1W`, the
8-bit configuration `cfgW`, and one URL. -/
theorem C3_derive_id_bound_witness :
    hexToNat (get_id_from_string sha1W cfgW "https://example.org") < 2 ^ cfgW.ID_BITS ∧
    (cfgW.ID_BITS % 8 = 0 →
      get_id_from_string sha1W cfgW "https://example.org" =
        bytesHex ((sha1W "https://example.org").take cfgW.BYTE_LEN)) :=
  C3_derive_id_bound sha1W cfgW "https://example.org"
    (sha1W_length _) (sha1W_bytes _) (by decide) (by decide) (by decide)

/-- C2: under a SHA-1-like digest, an `ID_BITS` in `{1..160}` with its
byte-ceiling `BYTE_LEN`, and pairwise-distinct derived identifiers,
`get_node_ids` returns exactly `NUM_NODES` identifiers strictly ascending
as unsigned integers; Python's lexicographic string sort coincides with
numeric order here because every identifier is a lowercase hex string of
exactly `2 * BYTE_LEN` characters. -/
theorem C2_ring_sorted_ascending (sha1 : String → List Nat) (cfg : Config)
    (hlen : ∀ s, (sha1 s).length = 20) (hbytes : ∀ s, ∀ b ∈ sha1 s, b < 256)
    (h1 : 1 ≤ cfg.ID_BITS) (h2 : cfg.ID_BITS ≤ 160)
    (hB : cfg.BYTE_LEN = (cfg.ID_BITS + 7) / 8)
    (_hn : 1 ≤ cfg.NUM_NODES)
    (hdistinct : ((List.range cfg.NUM_NODES).map
      (fun i => get_id_from_string sha1 cfg (node_name i))).Nodup) :
    (get_node_ids sha1 cfg).length = cfg.NUM_NODES ∧
    (get_node_ids sha1 cfg).Pairwise (fun s t => hexToNat s < hexToNat t) ∧
    ∀ x ∈ get_node_ids sha1 cfg, IsHexStr x ∧ x.length = 2 * cfg.BYTE_LEN := by
  have hperm : (get_node_ids sha1 cfg).Perm
      ((List.range cfg.NUM_NODES).map (fun i => get_id_from_string sha1 cfg (node_name i))) :=
    sortHex_perm _
  have hmem : ∀ x ∈ get_node_ids sha1 cfg, IsHexStr x ∧ x.length = 2 * cfg.BYTE_LEN := by
    intro x hx
    obtain ⟨i, hi, rfl⟩ := List.mem_map.1 (hperm.mem_iff.1 hx)
    have hspec := get_id_spec sha1 cfg (node_name i) (hlen _) (hbytes _) h1 h2 hB
    exact ⟨hspec.1, hspec.2.1⟩
  refine ⟨?_, ?_, hmem⟩
  · rw [hperm.length_eq, List.length_map, List.length_range]
  · exact pairwise_hexlt (2 * cfg.BYTE_LEN) _ hmem (sortHex_sorted _) (hperm.symm.nodup hdistinct)

/-- C2 witness: the two-node, 8-bit configuration `cfgW` under the
concrete digest `sha1W` yields a ring of two strictly ascending two-digit
hex identifiers. -/
theorem C2_ring_sorted_ascending_witness :
    (get_node_ids sha1W cfgW).length = cfgW.NUM_NODES ∧
    (get_node_ids sha1W cfgW).Pairwise (fun s t => hexToNat s < hexToNat t) ∧
    ∀ x ∈ get_node_ids sha1W cfgW, IsHexStr x ∧ x.length = 2 * cfgW.BYTE_LEN :=
  C2_ring_sorted_ascending sha1W cfgW sha1W_length sha1W_bytes
    (by decide) (by decide) (by decide) (by decide) (by decide)

/-- C7: the comparator's normalisation strips an optional `0x` prefix
from a hex header value and left-pads it with `'0'` to exactly
`BYTE_LEN * 2` characters; consequently a well-formed header (lowercase
hex, optionally `0x`-prefixed, possibly missing leading zeros) whose
numeric value equals the expected owner is reported as a match. -/
theorem C7_header_normalization (blen : Nat) (e d pre : List Char) (c : Counts)
    (hpre : pre = [] ∨ pre = ['0', 'x'])
    (hd : IsHexStr d) (hdlen : d.length ≤ blen * 2)
    (he : IsHexStr e) (helen : e.length = blen * 2)
    (hval : hexToNat d = hexToNat e) :
    replace0x (pre ++ d) = d ∧
    zfill (blen * 2) d = e ∧
    process_url e blen (FetchResult.response 200 (some (pre ++ d))) c =
      { match_count := c.match_count + 1, total_count := c.total_count + 1 } := by
  have hstrip : replace0x (pre ++ d) = d := by
    rcases hpre with rfl | rfl
    · simpa using replace0x_hex d hd
    · show replace0x ('0' :: 'x' :: d) = d
      rw [replace0x_strip]
      exact replace0x_hex d hd
  have hpad : zfill (blen * 2) d = e := by
    apply hexStr_eq_of_val_eq
    · rw [zfill_hex_length _ _ hd hdlen, helen]
    · exact zfill_hex_isHex _ _ hd
    · exact he
    · rw [zfill_hex_val _ _ hd, hval]
  refine ⟨hstrip, hpad, ?_⟩
  simp [process_url, hstrip, hpad]

/-- C7 witness: the header value `"0xa"` — prefixed and missing a leading
zero — is normalised to `"0a"` and matches the expected owner `"0a"` in a
1-byte space. -/
theorem C7_header_normalization_witness :
    replace0x (['0', 'x'] ++ ['a']) = ['a'] ∧
    zfill (1 * 2) ['a'] = ['0', 'a'] ∧
    process_url ['0', 'a'] 1 (FetchResult.response 200 (some (['0', 'x'] ++ ['a']))) ⟨0, 0⟩ =
      { match_count := 1, total_count := 1 } :=
  C7_header_normalization 1 ['0', 'a'] ['a'] ['0', 'x'] ⟨0, 0⟩
    (Or.inr rfl) (by decide) (by decide) (by decide) (by decide) (by decide)
